import Mathlib

set_option maxRecDepth 100000

/-
  Verification of the MCQ-parsing and normalization core of
  `src/app.py` (Legal Question Generator).

  Strings are modelled as `List Char`.  The two fixed regular expressions in
  the source (`re.split(r'\n?\*?\*?\d+\.\*?\*?\n?', ...)` and
  `re.match(r"^[A-D][\).]", ...)`) are embedded as executable matchers.
  `\d` and the `str.split()/str.strip()` whitespace class are modelled over
  the ASCII fragment, which agrees with Python on all ASCII text.
-/

/-! ### Python string primitives -/

/-- Whitespace class of Python `str.split()` / `str.strip()` (ASCII part). -/
def pyIsSpace (c : Char) : Bool :=
  c = ' ' || c = '\t' || c = '\n' || c = '\r' || c = '\x0b' || c = '\x0c'

/-- Python `str.strip()`: drop leading and trailing whitespace. -/
def pyStrip (s : List Char) : List Char :=
  ((s.dropWhile pyIsSpace).reverse.dropWhile pyIsSpace).reverse

/-- Python `str.split()` with no argument: maximal runs of non-whitespace
characters, with separators and empty pieces discarded.  `acc` holds the
current word, reversed. -/
def wordsAux : List Char → List Char → List (List Char)
  | [], acc => if acc.isEmpty then [] else [acc.reverse]
  | c :: rest, acc =>
    if pyIsSpace c then
      if acc.isEmpty then wordsAux rest [] else acc.reverse :: wordsAux rest []
    else wordsAux rest (c :: acc)

/-- Python `" ".join(ws)`. -/
def joinSp : List (List Char) → List Char
  | [] => []
  | w :: ws => w ++ (match ws with | [] => [] | _ :: _ => ' ' :: joinSp ws)

/-- Python `block.split('\n')`: split at every newline, keeping empty pieces. -/
def splitOnNl : List Char → List (List Char)
  | [] => [[]]
  | c :: rest =>
    let r := splitOnNl rest
    if c = '\n' then [] :: r
    else
      match r with
      | [] => [[c]]
      | l :: ls => (c :: l) :: ls

/-- `pat.isPrefixOf s`-style occurrence test: does `pat` occur as a
contiguous segment of `s`?  (Python `pat in s`.) -/
def occursIn (pat : List Char) : List Char → Bool
  | [] => pat.isEmpty
  | c :: rest => pat.isPrefixOf (c :: rest) || occursIn pat rest

/-- Fuel-driven core of Python `s.replace(pat, "")`: every (leftmost,
non-overlapping) occurrence of `pat` is deleted.  `fuel ≥ s.length` makes the
fuel-exhaustion branch unreachable for the non-empty patterns used in the
source. -/
def replA (pat : List Char) : Nat → List Char → List Char
  | _, [] => []
  | 0, s => s
  | f + 1, c :: rest =>
    if pat.isPrefixOf (c :: rest) then
      replA pat f (List.drop (pat.length - 1) rest)
    else c :: replA pat f rest

/-- Python `s.replace(pat, "")`. -/
def pyReplace (pat s : List Char) : List Char := replA pat s.length s

/-! ### app.py text utilities -/

/-- `MAX_TOKENS = 15000` (app.py line 10). -/
def MAX_TOKENS : Nat := 15000

/-- `clean_text` (app.py lines 32-33): `' '.join(text.split())`. -/
def clean_text (text : List Char) : List Char := joinSp (wordsAux text [])

/-- `truncate_text` (app.py lines 35-36): `text[:max_chars]`. -/
def truncate_text (text : List Char) (max_chars : Nat) : List Char :=
  text.take max_chars

/-- The full normalizer as used at app.py lines 127-128:
`truncate_text(clean_text(text))` with the default budget. -/
def normText (text : List Char) : List Char :=
  truncate_text (clean_text text) MAX_TOKENS

/-! ### The block delimiter of `parse_mcqs` -/

/-- Consume a single optional `\n` at the head (`\n?`). -/
def dropNl : List Char → List Char
  | [] => []
  | c :: r => if c = '\n' then r else c :: r

/-- Consume a single optional `*` at the head (`\*?`). -/
def dropStar : List Char → List Char
  | [] => []
  | c :: r => if c = '*' then r else c :: r

/-- One attempt of the source pattern `\n?\*?\*?\d+\.\*?\*?\n?` (app.py
line 83) anchored at the head of `s`; returns the remainder after the match.
Each optional piece is committed greedily, exactly as Python's backtracking
engine prefers; when this committed attempt fails no backtracking alternative
can succeed, because a character accepted by an earlier optional piece is
rejected by every later piece of the pattern. -/
def matchDelim (s : List Char) : Option (List Char) :=
  let s2 := dropStar (dropStar (dropNl s))
  if s2.takeWhile Char.isDigit ≠ [] ∧ (s2.dropWhile Char.isDigit).head? = some '.' then
    some (dropNl (dropStar (dropStar (s2.dropWhile Char.isDigit).tail)))
  else none

/-- Fuel-driven scanner of Python `re.split`: scan left to right, emit the
accumulated piece at each (leftmost, non-overlapping) match.  A successful
match consumes at least two characters, so `fuel = input length` never runs
out. -/
def splitF : Nat → List Char → List Char → List (List Char)
  | _, acc, [] => [acc.reverse]
  | 0, acc, s => [acc.reverse ++ s]
  | f + 1, acc, c :: rest =>
    match matchDelim (c :: rest) with
    | some r => acc.reverse :: splitF f [] r
    | none => splitF f (c :: acc) rest

/-- `re.split(r'\n?\*?\*?\d+\.\*?\*?\n?', raw_output)` (app.py line 83). -/
def splitDelim (raw : List Char) : List (List Char) := splitF raw.length [] raw

/-! ### The per-block state machine of `parse_mcqs` -/

/-- `re.match(r"^[A-D][\).]", l)` (app.py line 96). -/
def isOptLine : List Char → Bool
  | c1 :: c2 :: _ => ('A' ≤ c1 && c1 ≤ 'D') && (c2 = ')' || c2 = '.')
  | _ => false

/-- `"Correct Answer:"` (app.py lines 99-100). -/
def caPat : List Char := "Correct Answer:".toList

/-- `"Explanation:"` (app.py lines 102-103). -/
def exPat : List Char := "Explanation:".toList

/-- The `state` variable of the per-block loop (app.py line 93). -/
inductive MState where
  | scenario
  | options
  | answer
  | explanation
deriving DecidableEq, Repr

/-- The mutable locals of the per-block loop (app.py lines 89-93). -/
structure PState where
  scenario : List (List Char)
  options : List (List Char)
  answer : List Char
  explanation : List Char
  mstate : MState
deriving DecidableEq, Repr

def initPS : PState := ⟨[], [], [], [], .scenario⟩

/-- The body of `for line in lines` (app.py lines 94-108). -/
def stepLine (st : PState) (line : List Char) : PState :=
  let l := pyStrip line
  if isOptLine l then
    { st with mstate := .options, options := st.options ++ [l] }
  else if caPat.isPrefixOf l then
    { st with answer := pyStrip (pyReplace caPat l), mstate := .answer }
  else if exPat.isPrefixOf l then
    { st with explanation := pyStrip (pyReplace exPat l), mstate := .explanation }
  else
    match st.mstate with
    | .scenario => { st with scenario := st.scenario ++ [l] }
    | .options => { st with options := st.options ++ [l] }
    | _ => st

/-- The dict appended to `mcqs` (app.py lines 110-115). -/
structure McqRecord where
  scenario : List Char
  options : List (List Char)
  answer : List Char
  explanation : List Char
deriving DecidableEq, Repr

/-- The per-block part of `parse_mcqs` (app.py lines 85-115): strip the
block, drop it when empty or shorter than 20 characters (`not block` is
subsumed: an empty string has length `0 < 20`), run the line machine, and
emit a record only when both `options` and `answer` are non-empty. -/
def parse_block (block : List Char) : Option McqRecord :=
  let b := pyStrip block
  if b.length < 20 then none
  else
    let fin := (splitOnNl b).foldl stepLine initPS
    if !fin.options.isEmpty && !fin.answer.isEmpty then
      some ⟨joinSp fin.scenario, fin.options, fin.answer, fin.explanation⟩
    else none

/-- `parse_mcqs` (app.py lines 81-116). -/
def parse_mcqs (raw : List Char) : List McqRecord :=
  (splitDelim raw).filterMap parse_block

/-! ### Decimal rendering (Python `str(i)` / f-string `{i}`) -/

def digitChar (m : Nat) : Char :=
  match m with
  | 0 => '0' | 1 => '1' | 2 => '2' | 3 => '3' | 4 => '4'
  | 5 => '5' | 6 => '6' | 7 => '7' | 8 => '8' | _ => '9'

/-- Fuel-driven digit accumulator; `fuel ≥ n` always suffices since the
value shrinks by a factor of ten per step. -/
def natCharsF : Nat → Nat → List Char → List Char
  | 0, _, acc => acc
  | _ + 1, 0, acc => acc
  | f + 1, n + 1, acc => natCharsF f ((n + 1) / 10) (digitChar ((n + 1) % 10) :: acc)

/-- Python `str(n)` for a natural number. -/
def pyRepr (n : Nat) : List Char := if n = 0 then ['0'] else natCharsF n n []

/-! ### `mcqs_to_md` and the download payloads -/

/-- The option-writing inner loop of `mcqs_to_md` (app.py lines 162-163):
each option is appended to the buffer followed by a newline. -/
def writeOpts (buf : List Char) (opts : List (List Char)) : List Char :=
  opts.foldl (fun b o => b ++ o ++ ['\n']) buf

/-- The body of `for i, mcq in enumerate(mcqs, 1)` (app.py lines 160-165):
four sequential `out.write` calls (with the option loop in the middle)
appending to the buffer, then the index advances. -/
def mdStep (st : List Char × Nat) (m : McqRecord) : List Char × Nat :=
  let b1 := st.1 ++ "### Q".toList ++ pyRepr st.2 ++ ": ".toList
              ++ m.scenario ++ ['\n']
  let b2 := writeOpts b1 m.options
  let b3 := b2 ++ "**Correct Answer:** ".toList ++ m.answer ++ ['\n']
  let b4 := b3 ++ "**Explanation:** ".toList ++ m.explanation ++ ['\n', '\n']
  (b4, st.2 + 1)

/-- `mcqs_to_md` (app.py lines 158-166): sequential `StringIO` writes over
`enumerate(mcqs, 1)`, modelled as a fold carrying the buffer and the
1-based index. -/
def mcqs_to_md (mcqs : List McqRecord) : List Char :=
  (mcqs.foldl mdStep ([], 1)).1

/-- The payload handed to the `.md` download button (app.py line 169). -/
def download_md_payload (mcqs : List McqRecord) : List Char := mcqs_to_md mcqs

/-- The payload handed to the `.txt` download button (app.py line 170):
the source passes the same `md` value to both buttons. -/
def download_txt_payload (mcqs : List McqRecord) : List Char := mcqs_to_md mcqs

/-- Specification-side rendering of one record: a heading line with the
1-based index and the scenario, the option lines, an answer line, an
explanation line, and a blank separator line. -/
def recordMd (i : Nat) (m : McqRecord) : List Char :=
  "### Q".toList ++ pyRepr i ++ ": ".toList ++ m.scenario ++ ['\n']
    ++ (m.options.map (· ++ ['\n'])).flatten
    ++ "**Correct Answer:** ".toList ++ m.answer ++ ['\n']
    ++ "**Explanation:** ".toList ++ m.explanation ++ ['\n', '\n']

/-- Specification-side serialization: records rendered in order with
consecutive 1-based indices starting at `i`. -/
def mdRecords (i : Nat) : List McqRecord → List (List Char)
  | [] => []
  | m :: ms => recordMd i m :: mdRecords (i + 1) ms

/-! ### Credential lookup and the completion call -/

/-- The ambient configuration of `get_groq_api_key`: `st.secrets` and the
process environment, each a partial map from variable names to values. -/
structure GroqEnv where
  secrets : List Char → Option (List Char)
  envVars : List Char → Option (List Char)

def GROQ_KEY_NAME : List Char := "GROQ_API_KEY".toList

/-- `get_groq_api_key` (app.py lines 59-60):
`st.secrets["GROQ_API_KEY"] if "GROQ_API_KEY" in st.secrets else os.getenv("GROQ_API_KEY")`. -/
def get_groq_api_key (e : GroqEnv) : Option (List Char) :=
  match e.secrets GROQ_KEY_NAME with
  | some v => some v
  | none => e.envVars GROQ_KEY_NAME

/-- The observable outcome of `call_groq_api`: the returned content, the
message passed to `st.error` (if any), and whether the Groq client call was
reached. -/
structure CallOutcome where
  content : Option (List Char)
  errorMsg : Option (List Char)
  apiCalled : Bool
deriving DecidableEq

def API_KEY_ERROR : List Char :=
  "Please set your GROQ_API_KEY in Streamlit secrets or environment variables.".toList

/-- `call_groq_api` (app.py lines 62-78).  The external
`client.chat.completions.create` call is abstracted as an oracle `api` from
the prompt to the optional message content of the first choice; Python's
`if not api_key` treats both an absent key and an empty-string key as
missing, and the final truthiness chain leaves `content = None` when the
returned content is empty. -/
def call_groq_api (e : GroqEnv) (api : List Char → Option (List Char))
    (prompt : List Char) : CallOutcome :=
  match get_groq_api_key e with
  | none => ⟨none, some API_KEY_ERROR, false⟩
  | some k =>
    if k.isEmpty then ⟨none, some API_KEY_ERROR, false⟩
    else
      let content :=
        match api prompt with
        | some c => if c.isEmpty then none else some (pyStrip c)
        | none => none
      ⟨content, none, true⟩

/-! ## Theorems -/

/-! ### C3: concrete end-to-end parse -/

/-- C3: applying `parse_mcqs` to the raw output
`"1. A tenant is evicted without notice.\nA) Valid\nB) Invalid\nC) Unclear\nD) None\nCorrect Answer: B\nExplanation: Due process requires notice."`
yields exactly one record with scenario
`"A tenant is evicted without notice."`, options
`["A) Valid", "B) Invalid", "C) Unclear", "D) None"]`, answer `"B"`, and
explanation `"Due process requires notice."`. -/
theorem C3_end_to_end_example :
    parse_mcqs ("1. A tenant is evicted without notice.\nA) Valid\nB) Invalid\nC) Unclear\nD) None\nCorrect Answer: B\nExplanation: Due process requires notice.".toList)
      = [⟨"A tenant is evicted without notice.".toList,
          ["A) Valid".toList, "B) Invalid".toList, "C) Unclear".toList,
           "D) None".toList],
          "B".toList, "Due process requires notice.".toList⟩] := by
  decide

/-! ### C4: option lines win in every state -/

/-- C4: in the per-block state machine, a line whose stripped form matches
`^[A-D][\).]` sets the state to `options` and appends the stripped line to
the options sequence, whatever the state was before. -/
theorem C4_option_line_from_any_state (st : PState) (line : List Char)
    (h : isOptLine (pyStrip line) = true) :
    stepLine st line
      = { st with mstate := .options, options := st.options ++ [pyStrip line] } := by
  unfold stepLine
  simp [h]

/-- Witness for C4 at a concrete line and a machine in the `explanation`
state. -/
theorem C4_witness :
    stepLine ⟨[['x']], [], ['A'], ['e'], .explanation⟩ " C. foo ".toList
      = { PState.mk [['x']] [] ['A'] ['e'] .explanation with
          mstate := .options,
          options := [] ++ [pyStrip " C. foo ".toList] } :=
  C4_option_line_from_any_state _ _ (by decide)

/-! ### C5: short blocks are always dropped -/

/-- C5: a block whose stripped form has fewer than 20 characters is dropped
by `parse_mcqs`'s per-block processing, whatever its content. -/
theorem C5_short_block_dropped (block : List Char)
    (h : (pyStrip block).length < 20) : parse_block block = none := by
  unfold parse_block
  simp [h]

/-- Witness for C5: a sub-20-character block that even contains an option
line and a non-empty `Correct Answer:` line is still dropped. -/
theorem C5_witness :
    (pyStrip "A)\nCorrect Answer:B".toList).length < 20 ∧
      parse_block "A)\nCorrect Answer:B".toList = none :=
  ⟨by decide, C5_short_block_dropped _ (by decide)⟩

/-! ### C7: truncation bounds -/

/-- C7: `truncate_text` never returns more than `max_chars` characters, and
is the identity on inputs of length at most `max_chars`. -/
theorem C7_truncate_bounds (text : List Char) (max_chars : Nat) :
    (truncate_text text max_chars).length ≤ max_chars ∧
      (text.length ≤ max_chars → truncate_text text max_chars = text) :=
  ⟨List.length_take_le _ _, fun h => List.take_of_length_le h⟩

/-- Witness for C7 at a concrete short string. -/
theorem C7_witness :
    (truncate_text "hello".toList 10).length ≤ 10 ∧
      truncate_text "hello".toList 10 = "hello".toList :=
  ⟨(C7_truncate_bounds "hello".toList 10).1,
   (C7_truncate_bounds "hello".toList 10).2 (by decide)⟩

/-! ### C8: missing credential -/

/-- C8: when `GROQ_API_KEY` is in neither the secrets store nor the
environment, `call_groq_api` returns no content, reports the configuration
error message, and never reaches the API call. -/
theorem C8_missing_credential (e : GroqEnv)
    (api : List Char → Option (List Char)) (prompt : List Char)
    (h1 : e.secrets GROQ_KEY_NAME = none)
    (h2 : e.envVars GROQ_KEY_NAME = none) :
    call_groq_api e api prompt = ⟨none, some API_KEY_ERROR, false⟩ := by
  unfold call_groq_api get_groq_api_key
  rw [h1, h2]

/-- Witness for C8 with empty stores and an oracle that would return
content if it were called. -/
theorem C8_witness :
    call_groq_api ⟨fun _ => none, fun _ => none⟩ (fun _ => some ['x']) []
      = ⟨none, some API_KEY_ERROR, false⟩ :=
  C8_missing_credential _ _ _ rfl rfl

/-! ### C10: the delimiter is not anchored to line starts -/

/-- C10: the block delimiter also fires on a digits-period sequence in the
middle of a line: the citation `Article 21.5` inside the scenario sentence
splits the single intended question into three blocks, and the surviving
record's scenario is the truncated tail `5 the tenant may stay`. -/
theorem C10_midline_digits_split :
    splitDelim "1. Under Article 21.5 the tenant may stay\nA) Yes\nB) No\nCorrect Answer: A\nExplanation: See clause.".toList
      = ["".toList, " Under Article ".toList,
         "5 the tenant may stay\nA) Yes\nB) No\nCorrect Answer: A\nExplanation: See clause.".toList] ∧
    parse_mcqs "1. Under Article 21.5 the tenant may stay\nA) Yes\nB) No\nCorrect Answer: A\nExplanation: See clause.".toList
      = [⟨"5 the tenant may stay".toList, ["A) Yes".toList, "B) No".toList],
          "A".toList, "See clause.".toList⟩] := by
  constructor
  · decide
  · decide

/-! ### C9: export serialization -/

lemma writeOpts_eq : ∀ (opts : List (List Char)) (buf : List Char),
    writeOpts buf opts = buf ++ (opts.map (fun o => o ++ ['\n'])).flatten
  | [], buf => by simp [writeOpts]
  | o :: os, buf => by
    have ih := writeOpts_eq os (buf ++ o ++ ['\n'])
    simp only [writeOpts, List.foldl_cons] at ih ⊢
    rw [ih]
    simp

lemma foldl_mdStep_eq : ∀ (mcqs : List McqRecord) (buf : List Char) (i : Nat),
    (List.foldl mdStep (buf, i) mcqs).1 = buf ++ (mdRecords i mcqs).flatten
  | [], buf, i => by simp [mdRecords]
  | m :: ms, buf, i => by
    have ih := foldl_mdStep_eq ms
    simp only [List.foldl_cons, mdStep, writeOpts_eq, ih, mdRecords, recordMd,
      List.flatten_cons]
    simp

/-- C9: `mcqs_to_md` renders the records in order, each as a heading line
carrying its 1-based index and scenario, then its option lines, an answer
line, an explanation line and a blank separator line; and the `.md` and
`.txt` download payloads are byte-identical. -/
theorem C9_export_serialization (mcqs : List McqRecord) :
    mcqs_to_md mcqs = (mdRecords 1 mcqs).flatten ∧
      download_md_payload mcqs = download_txt_payload mcqs := by
  refine ⟨?_, rfl⟩
  show (mcqs.foldl mdStep ([], 1)).1 = _
  rw [foldl_mdStep_eq]
  simp

/-! ### C2: the emission rule -/

/-- C2: for every block surviving the length filter, a record is emitted iff
the machine's accumulated options and answer are both non-empty; a block
with option lines but no `Correct Answer:` line yields nothing, a block with
an answer but no option lines yields nothing, and a record can be emitted
with empty scenario and empty explanation. -/
theorem C2_emission_rule :
    (∀ block : List Char, 20 ≤ (pyStrip block).length →
      ((parse_block block).isSome ↔
        ((splitOnNl (pyStrip block)).foldl stepLine initPS).options ≠ [] ∧
          ((splitOnNl (pyStrip block)).foldl stepLine initPS).answer ≠ [])) ∧
    parse_block "A) option text long enough here\nB) second option".toList = none ∧
    parse_block "Some scenario text that is long enough\nCorrect Answer: B".toList = none ∧
    parse_block "A) a sufficiently long option line\nCorrect Answer: B".toList
      = some ⟨[], ["A) a sufficiently long option line".toList], "B".toList, []⟩ := by
  refine ⟨?_, by decide, by decide, by decide⟩
  intro block h
  unfold parse_block
  rw [if_neg (by omega)]
  dsimp only
  split
  · rename_i hcond
    simp only [Bool.and_eq_true, Bool.not_eq_true', List.isEmpty_eq_false] at hcond
    simpa using hcond
  · rename_i hcond
    simp only [Bool.and_eq_true, Bool.not_eq_true', List.isEmpty_eq_false] at hcond
    simp only [Option.isSome_none]
    simpa using hcond

/-- Witness for C2's quantified part at a concrete surviving block. -/
theorem C2_witness :
    (parse_block "A) a sufficiently long option line\nCorrect Answer: B".toList).isSome ↔
      ((splitOnNl (pyStrip "A) a sufficiently long option line\nCorrect Answer: B".toList)).foldl
          stepLine initPS).options ≠ [] ∧
        ((splitOnNl (pyStrip "A) a sufficiently long option line\nCorrect Answer: B".toList)).foldl
          stepLine initPS).answer ≠ [] :=
  C2_emission_rule.1 _ (by decide)

/-! ### C6: the normalizer and idempotence -/

lemma wordsAux_word (w : List Char) (hw : ∀ c ∈ w, pyIsSpace c = false) :
    ∀ (s acc : List Char), wordsAux (w ++ s) acc = wordsAux s (w.reverse ++ acc) := by
  induction w with
  | nil => intro s acc; simp
  | cons c w' ih =>
    intro s acc
    have hc : pyIsSpace c = false := hw c (by simp)
    have hw' : ∀ d ∈ w', pyIsSpace d = false := fun d hd => hw d (by simp [hd])
    have h1 : wordsAux ((c :: w') ++ s) acc = wordsAux (w' ++ s) (c :: acc) := by
      simp [wordsAux, hc]
    rw [h1, ih hw' s (c :: acc)]
    simp

lemma wordsAux_space (s acc : List Char) (h : acc ≠ []) :
    wordsAux (' ' :: s) acc = acc.reverse :: wordsAux s [] := by
  have : acc.isEmpty = false := by simpa [List.isEmpty_iff] using h
  simp [wordsAux, pyIsSpace, this]

lemma wordsAux_nil_emit (acc : List Char) (h : acc ≠ []) :
    wordsAux [] acc = [acc.reverse] := by
  have : acc.isEmpty = false := by simpa [List.isEmpty_iff] using h
  simp [wordsAux, this]

/-- The output shape of `str.split()`: every word is non-empty and contains
no whitespace. -/
def goodWords (ws : List (List Char)) : Prop :=
  ∀ w ∈ ws, w ≠ [] ∧ ∀ c ∈ w, pyIsSpace c = false

lemma goodWords_wordsAux :
    ∀ (s acc : List Char), (∀ c ∈ acc, pyIsSpace c = false) →
      goodWords (wordsAux s acc) := by
  intro s
  induction s with
  | nil =>
    intro acc hacc
    cases acc with
    | nil => simp [wordsAux, goodWords]
    | cons a as =>
      rw [wordsAux_nil_emit _ (by simp)]
      intro w hw
      rw [List.mem_singleton] at hw
      subst hw
      refine ⟨by simp, ?_⟩
      intro c hc
      exact hacc c (List.mem_reverse.mp hc)
  | cons c s' ih =>
    intro acc hacc
    by_cases hc : pyIsSpace c = true
    · by_cases ha : acc.isEmpty = true
      · have : wordsAux (c :: s') acc = wordsAux s' [] := by simp [wordsAux, hc, ha]
        rw [this]
        exact ih [] (by simp)
      · have : wordsAux (c :: s') acc = acc.reverse :: wordsAux s' [] := by
          simp [wordsAux, hc, ha]
        rw [this]
        intro w hw
        rcases List.mem_cons.mp hw with rfl | hw'
        · refine ⟨?_, ?_⟩
          · simpa [List.isEmpty_iff] using ha
          · intro d hd; exact hacc d (List.mem_reverse.mp hd)
        · exact ih [] (by simp) w hw'
    · have hc' : pyIsSpace c = false := by simpa using hc
      have : wordsAux (c :: s') acc = wordsAux s' (c :: acc) := by
        simp [wordsAux, hc']
      rw [this]
      refine ih (c :: acc) ?_
      intro d hd
      rcases List.mem_cons.mp hd with rfl | h
      · exact hc'
      · exact hacc d h

lemma wordsAux_joinSp : ∀ ws, goodWords ws → wordsAux (joinSp ws) [] = ws := by
  intro ws
  induction ws with
  | nil => intro _; simp [joinSp, wordsAux]
  | cons w ws' ih =>
    intro hg
    have hw := hg w (by simp)
    have hg' : goodWords ws' := fun v hv => hg v (by simp [hv])
    cases ws' with
    | nil =>
      show wordsAux (w ++ (match ([] : List (List Char)) with
        | [] => ([] : List Char) | _ :: _ => ' ' :: joinSp []) ) [] = [w]
      rw [show (match ([] : List (List Char)) with
        | [] => ([] : List Char) | _ :: _ => ' ' :: joinSp []) = [] from rfl]
      rw [wordsAux_word w hw.2 [] []]
      rw [List.append_nil]
      rw [wordsAux_nil_emit _ (by simpa using hw.1)]
      simp
    | cons w2 ws'' =>
      show wordsAux (w ++ ' ' :: joinSp (w2 :: ws'')) [] = w :: w2 :: ws''
      rw [wordsAux_word w hw.2 _ []]
      rw [List.append_nil]
      rw [wordsAux_space _ _ (by simpa using hw.1)]
      rw [ih hg']
      simp

lemma clean_text_joinSp (ws : List (List Char)) (h : goodWords ws) :
    clean_text (joinSp ws) = joinSp ws := by
  unfold clean_text
  rw [wordsAux_joinSp ws h]

lemma clean_text_idem (s : List Char) :
    clean_text (clean_text s) = clean_text s :=
  clean_text_joinSp _ (goodWords_wordsAux s [] (by simp))

lemma joinSp_cons_cons (w w2 : List Char) (ws : List (List Char)) :
    joinSp (w :: w2 :: ws) = w ++ ' ' :: joinSp (w2 :: ws) := rfl

lemma joinSp_ne_nil (w : List Char) (ws : List (List Char)) (h : w ≠ []) :
    joinSp (w :: ws) ≠ [] := by
  cases ws with
  | nil => simpa [joinSp]
  | cons w2 ws' => simp [joinSp_cons_cons, h]

lemma take_joinSp :
    ∀ (ws : List (List Char)) (n : Nat), goodWords ws →
      (List.take n (joinSp ws)).getLast? ≠ some ' ' →
      ∃ ws', goodWords ws' ∧ List.take n (joinSp ws) = joinSp ws' := by
  intro ws
  induction ws with
  | nil => intro n _ _; exact ⟨[], by simp [goodWords], by simp [joinSp]⟩
  | cons w ws' ih =>
    intro n hg hlast
    have hw := hg w (by simp)
    have hg' : goodWords ws' := fun v hv => hg v (by simp [hv])
    cases ws' with
    | nil =>
      by_cases h0 : List.take n (joinSp [w]) = []
      · exact ⟨[], by simp [goodWords], by rw [h0]; simp [joinSp]⟩
      · refine ⟨[List.take n (joinSp [w])], ?_, by simp [joinSp]⟩
        intro v hv
        rw [List.mem_singleton] at hv
        subst hv
        refine ⟨h0, ?_⟩
        intro c hc
        have : c ∈ joinSp [w] := List.mem_of_mem_take hc
        have : c ∈ w := by simpa [joinSp] using this
        exact hw.2 c this
    | cons w2 ws'' =>
      rcases Nat.lt_or_ge n (w.length + 1) with hn | hn
      · -- the cut lands inside (or at the end of) the first word
        have hcut : List.take n (joinSp (w :: w2 :: ws'')) = List.take n w := by
          rw [joinSp_cons_cons, List.take_append_eq_append_take,
            Nat.sub_eq_zero_of_le (by omega), List.take_zero, List.append_nil]
        by_cases h0 : List.take n w = []
        · exact ⟨[], by simp [goodWords], by rw [hcut, h0]; simp [joinSp]⟩
        · refine ⟨[List.take n w], ?_, by rw [hcut]; simp [joinSp]⟩
          intro v hv
          rw [List.mem_singleton] at hv
          subst hv
          exact ⟨h0, fun c hc => hw.2 c (List.mem_of_mem_take hc)⟩
      · rcases Nat.eq_or_lt_of_le hn with hn1 | hn2
        · -- the cut lands right after the separator space: excluded
          exfalso
          apply hlast
          rw [joinSp_cons_cons, ← hn1, List.take_append 1]
          simp [List.getLast?_concat]
        · -- the cut lands strictly beyond the separator space
          have hm : n = w.length + 1 + (n - w.length - 1) := by omega
          have hsplit : List.take n (joinSp (w :: w2 :: ws''))
              = w ++ ' ' :: List.take (n - w.length - 1) (joinSp (w2 :: ws'')) := by
            rw [joinSp_cons_cons]
            conv_lhs =>
              rw [hm, show w.length + 1 + (n - w.length - 1)
                  = w.length + (1 + (n - w.length - 1)) from by omega]
            rw [List.take_append]
            rw [Nat.add_comm 1 (n - w.length - 1), List.take_succ_cons]
          have hne2 : List.take (n - w.length - 1) (joinSp (w2 :: ws'')) ≠ [] := by
            intro h
            rcases List.take_eq_nil_iff.mp h with h' | h'
            · omega
            · exact joinSp_ne_nil _ _ (hg w2 (by simp)).1 h'
          have hlast' :
              (List.take (n - w.length - 1) (joinSp (w2 :: ws''))).getLast? ≠ some ' ' := by
            rw [hsplit] at hlast
            rw [show w ++ ' ' :: List.take (n - w.length - 1) (joinSp (w2 :: ws''))
                = (w ++ [' ']) ++ List.take (n - w.length - 1) (joinSp (w2 :: ws''))
              from by simp] at hlast
            rwa [List.getLast?_append_of_ne_nil _ hne2] at hlast
          obtain ⟨ws3, hg3, heq⟩ := ih (n - w.length - 1) hg' hlast'
          have hws3 : ws3 ≠ [] := by
            intro h
            rw [h] at heq
            exact hne2 (by simpa [joinSp] using heq)
          refine ⟨w :: ws3, ?_, ?_⟩
          · intro v hv
            rcases List.mem_cons.mp hv with rfl | hv'
            · exact hw
            · exact hg3 v hv'
          · rw [hsplit, heq]
            cases ws3 with
            | nil => exact absurd rfl hws3
            | cons a b => rw [joinSp_cons_cons]

/-- C6 (amended): the normalizer `N(s) = truncate_text(clean_text(s))` is
idempotent on every input whose normalized output does not end with a space
character (equivalently: whenever the truncation cut does not land
immediately after a word separator). -/
theorem C6_normalizer_idem_amended (s : List Char)
    (h : (normText s).getLast? ≠ some ' ') :
    normText (normText s) = normText s := by
  unfold normText truncate_text
  by_cases hlen : (clean_text s).length ≤ MAX_TOKENS
  · rw [List.take_of_length_le hlen, clean_text_idem, List.take_of_length_le hlen]
  · have hgood : goodWords (wordsAux s []) := goodWords_wordsAux s [] (by simp)
    have h' : (List.take MAX_TOKENS (joinSp (wordsAux s []))).getLast? ≠ some ' ' := by
      simpa [normText, truncate_text, clean_text] using h
    obtain ⟨ws', hg', heq⟩ := take_joinSp (wordsAux s []) MAX_TOKENS hgood h'
    have hfix : clean_text (List.take MAX_TOKENS (clean_text s))
        = List.take MAX_TOKENS (clean_text s) := by
      show clean_text (List.take MAX_TOKENS (joinSp (wordsAux s []))) = _
      rw [heq, clean_text_joinSp ws' hg', ← heq]
      rfl
    rw [hfix]
    exact List.take_of_length_le (List.length_take_le _ _)

/-- Witness for the amended C6 at a concrete input with redundant
whitespace. -/
theorem C6_witness :
    normText (normText "a  b".toList) = normText "a  b".toList :=
  C6_normalizer_idem_amended "a  b".toList (by decide)

/-- A concrete input on which the normalizer is NOT idempotent: cleaning is
the identity on it, truncation to 15000 characters cuts immediately after
the separator space, and renormalizing strips that trailing space. -/
def c6cex : List Char := List.replicate 14999 'a' ++ [' ', 'b', 'b']

/-- Normalizing a clean `word ++ " bb"` input whose word fills the budget
less one character: the first pass truncates right after the separator
space; the second pass then strips it. -/
lemma normText_cut_after_space (rep : List Char)
    (hrep : ∀ c ∈ rep, pyIsSpace c = false)
    (hlen : rep.length + 1 = MAX_TOKENS) (hne : rep ≠ []) :
    normText (rep ++ [' ', 'b', 'b']) = rep ++ [' '] ∧
      normText (rep ++ [' ']) = rep := by
  have hne' : rep.reverse ++ ([] : List Char) ≠ [] := by simpa using hne
  have h1 : wordsAux (rep ++ [' ', 'b', 'b']) [] = [rep, ['b', 'b']] := by
    rw [wordsAux_word rep hrep]
    rw [wordsAux_space _ _ hne']
    simp [wordsAux, pyIsSpace]
  have hclean1 : clean_text (rep ++ [' ', 'b', 'b']) = rep ++ [' ', 'b', 'b'] := by
    unfold clean_text
    rw [h1]
    simp [joinSp]
  have h2 : wordsAux (rep ++ [' ']) [] = [rep] := by
    rw [wordsAux_word rep hrep]
    rw [wordsAux_space _ _ hne']
    simp [wordsAux]
  have hclean2 : clean_text (rep ++ [' ']) = rep := by
    unfold clean_text
    rw [h2]
    simp [joinSp]
  constructor
  · unfold normText truncate_text
    rw [hclean1, ← hlen, List.take_append]
    simp
  · unfold normText truncate_text
    rw [hclean2]
    exact List.take_of_length_le (by omega)

/-- C6 (counterexample): the normalizer is not idempotent as claimed;
`N(N(s)) ≠ N(s)` for the explicit 15002-character input `c6cex`. -/
theorem C6_counterexample : normText (normText c6cex) ≠ normText c6cex := by
  have hrep : ∀ c ∈ List.replicate 14999 'a', pyIsSpace c = false := by
    intro c hc
    rw [List.eq_of_mem_replicate hc]
    rfl
  have hlen : (List.replicate 14999 'a').length + 1 = MAX_TOKENS := by
    rw [List.length_replicate]
    decide
  have hne : List.replicate 14999 'a' ≠ [] :=
    List.ne_nil_of_length_pos (by rw [List.length_replicate]; omega)
  obtain ⟨hN, hNN⟩ := normText_cut_after_space (List.replicate 14999 'a') hrep hlen hne
  have hc : c6cex = List.replicate 14999 'a' ++ [' ', 'b', 'b'] := rfl
  rw [hc, hN, hNN]
  intro heq
  have h2 := congrArg List.length heq
  rw [List.length_append, List.length_replicate, List.length_singleton] at h2
  omega

/-! ### C1: infrastructure -/

lemma splitF_nil (f : Nat) (acc : List Char) : splitF f acc [] = [acc.reverse] := by
  cases f <;> rfl

lemma takeWhile_app (p : Char → Bool) :
    ∀ (l x : List Char), (∀ c ∈ l, p c = true) →
      (l ++ x).takeWhile p = l ++ x.takeWhile p ∧
        (l ++ x).dropWhile p = x.dropWhile p := by
  intro l
  induction l with
  | nil => intro x _; simp
  | cons c l' ih =>
    intro x hl
    have hc : p c = true := hl c (by simp)
    have ih' := ih x (fun d hd => hl d (by simp [hd]))
    refine ⟨?_, ?_⟩
    · simp only [List.cons_append, List.takeWhile_cons, hc, if_true, ih'.1]
    · simp only [List.cons_append, List.dropWhile_cons, hc, if_true, ih'.2]

lemma dropNl_nl (x : List Char) : dropNl ('\n' :: x) = x := by simp [dropNl]

lemma dropNl_other (c : Char) (x : List Char) (h : c ≠ '\n') :
    dropNl (c :: x) = c :: x := by simp [dropNl, h]

lemma dropStar_star (x : List Char) : dropStar ('*' :: x) = x := by simp [dropStar]

lemma dropStar_other (c : Char) (x : List Char) (h : c ≠ '*') :
    dropStar (c :: x) = c :: x := by simp [dropStar, h]

lemma isPrefixOf_self_append : ∀ (l x : List Char), l.isPrefixOf (l ++ x) = true := by
  intro l
  induction l with
  | nil => intro x; simp [List.isPrefixOf]
  | cons c l' ih => intro x; simp [List.isPrefixOf, ih]

lemma isPrefixOf_cons_ne (a b : Char) (as bs : List Char) (h : a ≠ b) :
    (a :: as).isPrefixOf (b :: bs) = false := by
  simp [List.isPrefixOf, h]

lemma replA_no_occur (pat : List Char) :
    ∀ (s : List Char) (f : Nat), s.length ≤ f → occursIn pat s = false →
      replA pat f s = s := by
  intro s
  induction s with
  | nil => intro f _ _; cases f <;> rfl
  | cons c rest ih =>
    intro f hf hocc
    cases f with
    | zero => simp at hf
    | succ f' =>
      have h2 : pat.isPrefixOf (c :: rest) = false ∧ occursIn pat rest = false := by
        have := hocc
        unfold occursIn at this
        constructor
        · cases hp : pat.isPrefixOf (c :: rest) with
          | false => rfl
          | true => rw [hp] at this; simp at this
        · cases ho : occursIn pat rest with
          | false => rfl
          | true => rw [ho] at this; simp at this
      show replA pat (f' + 1) (c :: rest) = c :: rest
      unfold replA
      rw [if_neg (by simp [h2.1])]
      rw [ih f' (by simpa using hf) h2.2]

lemma pyReplace_pat_cons (pat x : List Char) (hne : pat ≠ [])
    (hno : occursIn pat x = false) :
    pyReplace pat (pat ++ x) = x := by
  obtain ⟨p0, pr, rfl⟩ := List.exists_cons_of_ne_nil hne
  show replA (p0 :: pr) ((p0 :: pr) ++ x).length ((p0 :: pr) ++ x) = x
  rw [show (p0 :: pr) ++ x = p0 :: (pr ++ x) from rfl]
  rw [show (p0 :: (pr ++ x)).length = (pr ++ x).length + 1 from by simp]
  unfold replA
  rw [if_pos (by exact isPrefixOf_self_append (p0 :: pr) x)]
  rw [show (p0 :: pr).length - 1 = pr.length from by simp]
  rw [show List.drop pr.length (pr ++ x) = x from List.drop_left pr x]
  exact replA_no_occur _ x (pr ++ x).length (by simp) hno

lemma dropWhile_eq_self_of_head (p : Char → Bool) (l : List Char)
    (h : ∀ c, l.head? = some c → p c = false) : l.dropWhile p = l := by
  cases l with
  | nil => rfl
  | cons c r => simp [List.dropWhile_cons, h c rfl]

/-- Both ends of `l` are non-whitespace (or `l` is empty). -/
def strippedB (l : List Char) : Bool :=
  (match l.head? with | none => true | some c => !pyIsSpace c) &&
  (match l.getLast? with | none => true | some c => !pyIsSpace c)

lemma strippedB_head (l : List Char) (h : strippedB l = true) :
    ∀ c, l.head? = some c → pyIsSpace c = false := by
  intro c hc
  unfold strippedB at h
  rw [hc] at h
  simp at h
  exact h.1

lemma strippedB_getLast (l : List Char) (h : strippedB l = true) :
    ∀ c, l.getLast? = some c → pyIsSpace c = false := by
  intro c hc
  unfold strippedB at h
  rw [hc] at h
  simp at h
  exact h.2

lemma pyStrip_eq_self (l : List Char) (h : strippedB l = true) : pyStrip l = l := by
  unfold pyStrip
  rw [dropWhile_eq_self_of_head _ _ (strippedB_head l h)]
  have hside : ∀ c, l.reverse.head? = some c → pyIsSpace c = false := by
    intro c hc
    rw [List.head?_reverse] at hc
    exact strippedB_getLast l h c hc
  rw [dropWhile_eq_self_of_head _ _ hside]
  exact List.reverse_reverse l

lemma pyStrip_cons_space (x : List Char) : pyStrip (' ' :: x) = pyStrip x := by
  unfold pyStrip
  rw [show List.dropWhile pyIsSpace (' ' :: x) = List.dropWhile pyIsSpace x from by
    simp [List.dropWhile_cons, pyIsSpace]]

/-- No digit immediately followed by a period anywhere in the text: the
sufficient condition for the block delimiter to find no match inside it. -/
def noDigitDot : List Char → Bool
  | [] => true
  | [_] => true
  | c1 :: c2 :: rest => !(c1.isDigit && c2 = '.') && noDigitDot (c2 :: rest)

lemma noDigitDot_tail (c : Char) (t : List Char) (h : noDigitDot (c :: t) = true) :
    noDigitDot t = true := by
  cases t with
  | nil => rfl
  | cons b r =>
    unfold noDigitDot at h
    exact (Bool.and_eq_true_iff.mp h).2

lemma noDigitDot_cons_of_nondigit (c : Char) (t : List Char)
    (hc : c.isDigit = false) (ht : noDigitDot t = true) :
    noDigitDot (c :: t) = true := by
  cases t with
  | nil => rfl
  | cons b r =>
    unfold noDigitDot
    rw [hc]
    simpa using ht

lemma noDigitDot_cons_of_head (c : Char) (t : List Char)
    (ht : noDigitDot t = true) (hh : ∀ b, t.head? = some b → b ≠ '.') :
    noDigitDot (c :: t) = true := by
  cases t with
  | nil => rfl
  | cons b r =>
    unfold noDigitDot
    rw [Bool.and_eq_true_iff]
    refine ⟨?_, ht⟩
    simp [hh b rfl]

lemma noDigitDot_no_decomp :
    ∀ (p l : List Char), noDigitDot l = true →
      ∀ (d : Char) (suf : List Char), l = p ++ d :: '.' :: suf →
        d.isDigit = true → False := by
  intro p
  induction p with
  | nil =>
    intro l hl d suf hdec hd
    subst hdec
    simp only [List.nil_append] at hl
    unfold noDigitDot at hl
    rw [hd] at hl
    simp at hl
  | cons a p' ih =>
    intro l hl d suf hdec hd
    subst hdec
    have : noDigitDot (p' ++ d :: '.' :: suf) = true :=
      noDigitDot_tail a _ (by simpa using hl)
    exact ih _ this d suf rfl hd

lemma noDigitDot_append_newline :
    ∀ (a b : List Char), noDigitDot a = true → noDigitDot b = true →
      noDigitDot (a ++ '\n' :: b) = true := by
  intro a b
  induction a with
  | nil =>
    intro _ hb
    exact noDigitDot_cons_of_nondigit '\n' b (by decide) hb
  | cons c a' ih =>
    intro ha hb
    have ha' : noDigitDot a' = true := noDigitDot_tail c a' ha
    have hrec : noDigitDot (a' ++ '\n' :: b) = true := ih ha' hb
    cases a' with
    | nil =>
      exact noDigitDot_cons_of_head c _ hrec (by intro x hx; simp at hx; subst hx; decide)
    | cons x t =>
      show noDigitDot (c :: x :: (t ++ '\n' :: b)) = true
      unfold noDigitDot
      rw [Bool.and_eq_true_iff]
      constructor
      · unfold noDigitDot at ha
        exact (Bool.and_eq_true_iff.mp ha).1
      · exact hrec

lemma noDigitDot_append_of_all_nondigit :
    ∀ (a b : List Char), (∀ c ∈ a, c.isDigit = false) → noDigitDot b = true →
      noDigitDot (a ++ b) = true := by
  intro a b
  induction a with
  | nil => intro _ hb; simpa using hb
  | cons c a' ih =>
    intro ha hb
    exact noDigitDot_cons_of_nondigit c _ (ha c (by simp))
      (ih (fun d hd => ha d (by simp [hd])) hb)

lemma digitChar_isDigit (m : Nat) : (digitChar m).isDigit = true := by
  unfold digitChar
  split <;> decide

lemma digitChar_ne_dot (m : Nat) : digitChar m ≠ '.' := by
  unfold digitChar
  split <;> decide

lemma natCharsF_digits :
    ∀ (f n : Nat) (acc : List Char),
      ∃ ds, natCharsF f n acc = ds ++ acc ∧ (∀ c ∈ ds, c.isDigit = true) ∧
        (n ≠ 0 → f ≠ 0 → ds ≠ []) := by
  intro f
  induction f with
  | zero =>
    intro n acc
    exact ⟨[], rfl, by simp, fun _ h => absurd rfl h⟩
  | succ f' ih =>
    intro n acc
    cases n with
    | zero => exact ⟨[], rfl, by simp, fun h _ => absurd rfl h⟩
    | succ m =>
      obtain ⟨ds', heq, hdig, _⟩ := ih ((m + 1) / 10) (digitChar ((m + 1) % 10) :: acc)
      refine ⟨ds' ++ [digitChar ((m + 1) % 10)], ?_, ?_, ?_⟩
      · show natCharsF f' ((m + 1) / 10) (digitChar ((m + 1) % 10) :: acc) = _
        rw [heq]
        simp
      · intro c hc
        rcases List.mem_append.mp hc with h | h
        · exact hdig c h
        · rw [List.mem_singleton] at h
          subst h
          exact digitChar_isDigit _
      · intro _ _
        simp
lemma pyRepr_ne_nil (n : Nat) : pyRepr n ≠ [] := by
  unfold pyRepr
  by_cases h : n = 0
  · simp [h]
  · rw [if_neg h]
    obtain ⟨ds, heq, _, hne⟩ := natCharsF_digits n n []
    rw [heq]
    simpa using hne h h

lemma pyRepr_digits (n : Nat) : ∀ c ∈ pyRepr n, c.isDigit = true := by
  unfold pyRepr
  by_cases h : n = 0
  · rw [if_pos h]
    intro c hc
    rw [List.mem_singleton] at hc
    subst hc
    decide
  · rw [if_neg h]
    obtain ⟨ds, heq, hdig, _⟩ := natCharsF_digits n n []
    rw [heq]
    intro c hc
    exact hdig c (by simpa using hc)

lemma dropNl_decomp (s : List Char) :
    ∃ t, s = t ++ dropNl s ∧ ∀ c ∈ t, c = '\n' := by
  cases s with
  | nil => exact ⟨[], rfl, by simp⟩
  | cons c r =>
    by_cases hc : c = '\n'
    · subst hc
      exact ⟨['\n'], by simp [dropNl_nl], by simp⟩
    · exact ⟨[], by rw [dropNl_other c r hc]; rfl, by simp⟩

lemma dropStar_decomp (s : List Char) :
    ∃ t, s = t ++ dropStar s ∧ ∀ c ∈ t, c = '*' := by
  cases s with
  | nil => exact ⟨[], rfl, by simp⟩
  | cons c r =>
    by_cases hc : c = '*'
    · subst hc
      exact ⟨['*'], by simp [dropStar_star], by simp⟩
    · exact ⟨[], by rw [dropStar_other c r hc]; rfl, by simp⟩

/-- Any successful match of the delimiter pattern decomposes the input as a
skipped prefix drawn from `{newline, star, digit}` followed by a digit
immediately followed by a period. -/
lemma matchDelim_some_decomp (s r : List Char) (h : matchDelim s = some r) :
    ∃ pre d suf, s = pre ++ d :: '.' :: suf ∧ d.isDigit = true ∧
      ∀ c ∈ pre, c = '\n' ∨ c = '*' ∨ c.isDigit = true := by
  obtain ⟨t1, ht1, ht1c⟩ := dropNl_decomp s
  obtain ⟨t2, ht2, ht2c⟩ := dropStar_decomp (dropNl s)
  obtain ⟨t3, ht3, ht3c⟩ := dropStar_decomp (dropStar (dropNl s))
  unfold matchDelim at h
  dsimp only at h
  by_cases hcond : (dropStar (dropStar (dropNl s))).takeWhile Char.isDigit ≠ [] ∧
      ((dropStar (dropStar (dropNl s))).dropWhile Char.isDigit).head? = some '.'
  · have hsplit := List.takeWhile_append_dropWhile Char.isDigit
      (dropStar (dropStar (dropNl s)))
    obtain ⟨ds0, d, hds0⟩ : ∃ ds0 d,
        (dropStar (dropStar (dropNl s))).takeWhile Char.isDigit = ds0 ++ [d] := by
      obtain ⟨L, b, hL⟩ := (List.eq_nil_or_concat _).resolve_left hcond.1
      exact ⟨L, b, by simpa [List.concat_eq_append] using hL⟩
    obtain ⟨r0, hr0⟩ : ∃ r0,
        (dropStar (dropStar (dropNl s))).dropWhile Char.isDigit = '.' :: r0 := by
      rcases hdw : (dropStar (dropStar (dropNl s))).dropWhile Char.isDigit with - | ⟨c0, r0⟩
      · rw [hdw] at hcond; simp at hcond
      · rw [hdw] at hcond
        have : c0 = '.' := by simpa using hcond.2
        exact ⟨r0, by rw [this]⟩
    have hdig : ∀ c ∈ ds0 ++ [d], c.isDigit = true := by
      rw [← hds0]
      intro c hc
      exact List.mem_takeWhile_imp hc
    refine ⟨t1 ++ t2 ++ t3 ++ ds0, d, r0, ?_, ?_, ?_⟩
    · rw [hds0, hr0] at hsplit
      calc s = t1 ++ dropNl s := ht1
        _ = t1 ++ (t2 ++ dropStar (dropNl s)) := by rw [← ht2]
        _ = t1 ++ (t2 ++ (t3 ++ dropStar (dropStar (dropNl s)))) := by rw [← ht3]
        _ = t1 ++ (t2 ++ (t3 ++ ((ds0 ++ [d]) ++ '.' :: r0))) := by rw [hsplit]
        _ = (t1 ++ t2 ++ t3 ++ ds0) ++ d :: '.' :: r0 := by simp [List.append_assoc]
    · exact hdig d (by simp)
    · intro c hc
      rcases List.mem_append.mp hc with hc' | hc'
      · rcases List.mem_append.mp hc' with hc'' | hc''
        · rcases List.mem_append.mp hc'' with h3 | h3
          · exact Or.inl (ht1c c h3)
          · exact Or.inr (Or.inl (ht2c c h3))
        · exact Or.inr (Or.inl (ht3c c hc''))
      · exact Or.inr (Or.inr (hdig c (by simp [hc'])))
  · rw [if_neg hcond] at h
    simp at h

/-- The delimiter match at a rendered marker `"\n<digits>.\n"`. -/
lemma matchDelim_marker (num rest : List Char) (hnum : num ≠ [])
    (hdig : ∀ c ∈ num, c.isDigit = true) :
    matchDelim ('\n' :: (num ++ '.' :: '\n' :: rest)) = some rest := by
  obtain ⟨d, num', rfl⟩ := List.exists_cons_of_ne_nil hnum
  have hd : d.isDigit = true := hdig d (by simp)
  have hdst : d ≠ '*' := by
    intro h
    rw [h] at hd
    exact absurd hd (by decide)
  have hdig' : ∀ c ∈ d :: num', Char.isDigit c = true := hdig
  obtain ⟨htw, hdw⟩ := takeWhile_app Char.isDigit (d :: num') ('.' :: '\n' :: rest) hdig'
  unfold matchDelim
  dsimp only
  rw [dropNl_nl]
  rw [show (d :: num') ++ '.' :: '\n' :: rest = d :: (num' ++ '.' :: '\n' :: rest) from rfl]
  rw [dropStar_other d _ hdst, dropStar_other d _ hdst]
  rw [show d :: (num' ++ '.' :: '\n' :: rest)
      = (d :: num') ++ ('.' :: '\n' :: rest) from rfl]
  rw [htw, hdw]
  rw [if_pos ?hc]
  case hc =>
    constructor
    · simp [List.dropWhile_cons]
    · simp [List.dropWhile_cons]
  · rw [show (('.' :: '\n' :: rest).dropWhile Char.isDigit) = '.' :: '\n' :: rest from by
      simp [List.dropWhile_cons]]
    rw [show ('.' :: '\n' :: rest).tail = '\n' :: rest from rfl]
    rw [dropStar_other '\n' _ (by decide), dropStar_other '\n' _ (by decide), dropNl_nl]

/-- If a segment contains no digit-period pair and its final character is
not a newline, a star, or a digit, then the delimiter cannot match starting
anywhere inside the segment, whatever follows it. -/
lemma matchDelim_none_of_seg (seg rest : List Char)
    (hAdj : ∀ (p : List Char) (d : Char) (suf : List Char),
      seg = p ++ d :: '.' :: suf → d.isDigit = true → False)
    (hLast : ∀ (p : List Char) (c : Char), seg = p ++ [c] →
      c ≠ '\n' ∧ c ≠ '*' ∧ c.isDigit = false)
    (p q : List Char) (hq : seg = p ++ q) (hqne : q ≠ []) :
    matchDelim (q ++ rest) = none := by
  cases hmd : matchDelim (q ++ rest) with
  | none => rfl
  | some r =>
    exfalso
    obtain ⟨pre, d, suf, hdec, hdig, hpre⟩ := matchDelim_some_decomp _ _ hmd
    rcases Nat.lt_or_ge pre.length q.length with hlen | hlen
    · rcases Nat.lt_or_ge (pre.length + 1) q.length with hlen2 | hlen2
      · -- both the digit and the period fall inside q
        have hq1 : q = (q ++ rest).take q.length := (List.take_left q rest).symm
        rw [hdec] at hq1
        rw [List.take_append_eq_append_take] at hq1
        rw [List.take_of_length_le (by omega)] at hq1
        have hk : q.length - pre.length = (q.length - pre.length - 2) + 1 + 1 := by omega
        rw [hk, List.take_succ_cons, List.take_succ_cons] at hq1
        exact hAdj (p ++ pre) d (List.take (q.length - pre.length - 2) suf)
          (by rw [hq, hq1]; simp [List.append_assoc]) hdig
      · -- the digit is the last character of q
        have hlen3 : pre.length + 1 = q.length := by omega
        have hq1 : q = (q ++ rest).take q.length := (List.take_left q rest).symm
        rw [hdec] at hq1
        rw [List.take_append_eq_append_take] at hq1
        rw [List.take_of_length_le (by omega)] at hq1
        have hk : q.length - pre.length = 1 := by omega
        rw [hk, List.take_succ_cons, List.take_zero] at hq1
        have := hLast (p ++ pre) d (by rw [hq, hq1]; simp [List.append_assoc])
        rw [hdig] at this
        simp at this
    · -- q is entirely swallowed by the skipped prefix
      have hq1 : q = pre.take q.length := by
        have h0 : q = (q ++ rest).take q.length := (List.take_left q rest).symm
        rw [hdec] at h0
        rw [List.take_append_eq_append_take] at h0
        rw [Nat.sub_eq_zero_of_le hlen, List.take_zero, List.append_nil] at h0
        exact h0
      obtain ⟨q0, c, hq0⟩ : ∃ q0 c, q = q0 ++ [c] := by
        obtain ⟨L, b, hL⟩ := (List.eq_nil_or_concat q).resolve_left hqne
        exact ⟨L, b, by simpa [List.concat_eq_append] using hL⟩
      have hc : c ∈ pre := by
        have : c ∈ q := by rw [hq0]; simp
        rw [hq1] at this
        exact List.mem_of_mem_take this
      have := hLast (p ++ q0) c (by rw [hq, hq0]; simp [List.append_assoc])
      rcases hpre c hc with h | h | h
      · exact this.1 h
      · exact this.2.1 h
      · rw [this.2.2] at h
        simp at h

/-- Unfolding equations for `splitF` at a cons cell. -/
lemma splitF_cons_match_none (f : Nat) (acc : List Char) (c : Char) (rest : List Char)
    (h : matchDelim (c :: rest) = none) :
    splitF (f + 1) acc (c :: rest) = splitF f (c :: acc) rest := by
  show (match matchDelim (c :: rest) with
        | some r => acc.reverse :: splitF f [] r
        | none => splitF f (c :: acc) rest) = _
  rw [h]

lemma splitF_cons_match_some (f : Nat) (acc : List Char) (c : Char) (rest r : List Char)
    (h : matchDelim (c :: rest) = some r) :
    splitF (f + 1) acc (c :: rest) = acc.reverse :: splitF f [] r := by
  show (match matchDelim (c :: rest) with
        | some r => acc.reverse :: splitF f [] r
        | none => splitF f (c :: acc) rest) = _
  rw [h]

/-- Scanning a match-free segment only transfers it into the accumulator. -/
lemma splitF_no_match_seg :
    ∀ (seg : List Char) (f : Nat) (acc rest : List Char),
      (seg ++ rest).length ≤ f →
      (∀ p q, seg = p ++ q → q ≠ [] → matchDelim (q ++ rest) = none) →
      splitF f acc (seg ++ rest) = splitF (f - seg.length) (seg.reverse ++ acc) rest := by
  intro seg
  induction seg with
  | nil => intro f acc rest _ _; simp
  | cons c seg' ih =>
    intro f acc rest hf hno
    cases f with
    | zero => simp at hf
    | succ f' =>
      have hmd : matchDelim ((c :: seg') ++ rest) = none :=
        hno [] (c :: seg') rfl (by simp)
      rw [show (c :: seg') ++ rest = c :: (seg' ++ rest) from rfl] at hmd ⊢
      rw [splitF_cons_match_none f' acc c (seg' ++ rest) hmd]
      rw [ih f' (c :: acc) rest
        (by simp only [List.length_cons, List.length_append] at hf ⊢; omega)
        (fun p q hpq hqne => hno (c :: p) q (by rw [hpq]; rfl) hqne)]
      rw [show f' + 1 - (c :: seg').length = f' - seg'.length from by
            simp only [List.length_cons]; omega,
          show (c :: seg').reverse ++ acc = seg'.reverse ++ (c :: acc) from by simp]

/-! ### C1: well-formed numbered blocks and their rendering -/

/-- The data of one well-formed question block: a scenario line, the option
lines, the answer text, and the explanation text. -/
structure WFBlock where
  scenario : List Char
  opts : List (List Char)
  answer : List Char
  explanation : List Char
deriving DecidableEq, Repr

/-- A well-formed content line: non-empty, no surrounding whitespace, pure
ASCII, no embedded newline (it is one line), and no digit immediately
followed by a period (which the block delimiter would match). -/
def wfLine (l : List Char) : Bool :=
  !l.isEmpty && strippedB l &&
    l.all (fun c => !(c = '\n') && decide (c.toNat ≤ 127)) && noDigitDot l

/-- The rendered `Correct Answer:` line of a block. -/
def caLine (b : WFBlock) : List Char := caPat ++ ' ' :: b.answer

/-- The rendered `Explanation:` line of a block. -/
def exLine (b : WFBlock) : List Char := exPat ++ ' ' :: b.explanation

/-- Well-formedness of a block, as consumed by the parser: the scenario
line is not mistakable for an option/answer/explanation line, there are
exactly four option lines each matching `^[A-D][\).]`, answer and
explanation are non-empty and do not contain the markers again, and the
final character cannot be absorbed by a following delimiter match. -/
def wfBlock (b : WFBlock) : Bool :=
  wfLine b.scenario && !isOptLine b.scenario && !caPat.isPrefixOf b.scenario &&
    !exPat.isPrefixOf b.scenario &&
    (b.opts.length == 4) && b.opts.all (fun o => wfLine o && isOptLine o) &&
    wfLine b.answer && !occursIn caPat (' ' :: b.answer) &&
    wfLine b.explanation && !occursIn exPat (' ' :: b.explanation) &&
    (match b.explanation.getLast? with
     | some c => !c.isDigit && !(c = '*')
     | none => false)

/-- Python `"\n".join(ls)`-style join used to lay the block's lines out. -/
def joinNl : List (List Char) → List Char
  | [] => []
  | l :: ls => l ++ (match ls with | [] => [] | _ :: _ => '\n' :: joinNl ls)

/-- The lines of a rendered block. -/
def blockLines (b : WFBlock) : List (List Char) :=
  b.scenario :: (b.opts ++ [caLine b, exLine b])

/-- The rendered text of a block (what the splitter should hand back). -/
def blockText (b : WFBlock) : List Char := joinNl (blockLines b)

/-- The rendered raw model output: each block is preceded by a numbered
marker line `"\n<j>.\n"`, numbering starting at `j`. -/
def renderBlocks : Nat → List WFBlock → List Char
  | _, [] => []
  | j, b :: bs =>
    '\n' :: (pyRepr j ++ '.' :: '\n' :: (blockText b ++ renderBlocks (j + 1) bs))

def renderRaw (bs : List WFBlock) : List Char := renderBlocks 1 bs

/-- The record the parser is expected to emit for a block. -/
def toRecord (b : WFBlock) : McqRecord :=
  ⟨b.scenario, b.opts, b.answer, b.explanation⟩

/-- The unpacked consequences of `wfLine`. -/
lemma wfLine_props (l : List Char) (h : wfLine l = true) :
    l ≠ [] ∧ strippedB l = true ∧ (∀ c ∈ l, c ≠ '\n') ∧ noDigitDot l = true := by
  unfold wfLine at h
  simp only [Bool.and_eq_true, Bool.not_eq_true', List.isEmpty_eq_false,
    List.all_eq_true, decide_eq_true_eq] at h
  refine ⟨h.1.1.1, h.1.1.2, ?_, h.2⟩
  intro c hc
  have := (h.1.2 c hc).1
  simpa using this

/-- The unpacked consequences of `wfBlock`. -/
lemma wfBlock_props (b : WFBlock) (h : wfBlock b = true) :
    wfLine b.scenario = true ∧ isOptLine b.scenario = false ∧
      caPat.isPrefixOf b.scenario = false ∧ exPat.isPrefixOf b.scenario = false ∧
      b.opts.length = 4 ∧ (∀ o ∈ b.opts, wfLine o = true ∧ isOptLine o = true) ∧
      wfLine b.answer = true ∧ occursIn caPat (' ' :: b.answer) = false ∧
      wfLine b.explanation = true ∧ occursIn exPat (' ' :: b.explanation) = false ∧
      (∀ c, b.explanation.getLast? = some c → c.isDigit = false ∧ c ≠ '*') := by
  unfold wfBlock at h
  simp only [Bool.and_eq_true, Bool.not_eq_true', List.all_eq_true, beq_iff_eq] at h
  obtain ⟨⟨⟨⟨⟨⟨⟨⟨⟨⟨h1, h2⟩, h3⟩, h4⟩, h5⟩, h6⟩, h7⟩, h8⟩, h9⟩, h10⟩, h11⟩ := h
  refine ⟨h1, h2, h3, h4, h5, h6, h7, h8, h9, h10, ?_⟩
  intro c hc
  rw [hc] at h11
  simp only [Bool.and_eq_true, Bool.not_eq_true', decide_eq_false_iff_not] at h11
  exact h11

lemma joinNl_nil : joinNl [] = [] := rfl

lemma joinNl_singleton (l : List Char) : joinNl [l] = l := by simp [joinNl]

lemma joinNl_cons_ne (l : List Char) (ls : List (List Char)) (h : ls ≠ []) :
    joinNl (l :: ls) = l ++ '\n' :: joinNl ls := by
  cases ls with
  | nil => exact absurd rfl h
  | cons a b => rfl

lemma joinNl_concat_ne_nil :
    ∀ (ls : List (List Char)) (l : List Char), l ≠ [] → joinNl (ls ++ [l]) ≠ [] := by
  intro ls l hl
  cases ls with
  | nil => simpa [joinNl_singleton] using hl
  | cons a ls' =>
    rw [show (a :: ls') ++ [l] = a :: (ls' ++ [l]) from rfl]
    rw [joinNl_cons_ne _ _ (by simp)]
    simp

lemma getLast?_joinNl_concat :
    ∀ (ls : List (List Char)) (l : List Char), l ≠ [] →
      (joinNl (ls ++ [l])).getLast? = l.getLast? := by
  intro ls
  induction ls with
  | nil => intro l _; rw [List.nil_append, joinNl_singleton]
  | cons a ls' ih =>
    intro l hl
    rw [show (a :: ls') ++ [l] = a :: (ls' ++ [l]) from rfl]
    rw [joinNl_cons_ne _ _ (by simp)]
    rw [List.getLast?_append_of_ne_nil a (by simp)]
    rw [show ('\n' :: joinNl (ls' ++ [l])) = ['\n'] ++ joinNl (ls' ++ [l]) from rfl]
    rw [List.getLast?_append_of_ne_nil _ (joinNl_concat_ne_nil ls' l hl)]
    exact ih l hl

lemma joinNl_length_tail :
    ∀ (ls t : List (List Char)), t ≠ [] →
      (joinNl t).length ≤ (joinNl (ls ++ t)).length := by
  intro ls t ht
  induction ls with
  | nil => simp
  | cons a ls' ih =>
    rw [show (a :: ls') ++ t = a :: (ls' ++ t) from rfl]
    rw [joinNl_cons_ne _ _ (by
      intro hcon
      rcases List.append_eq_nil.mp hcon with ⟨-, h2⟩
      exact ht h2)]
    calc (joinNl t).length ≤ (joinNl (ls' ++ t)).length := ih
      _ ≤ _ := by simp; omega

lemma splitOnNl_no_nl : ∀ (l : List Char), (∀ c ∈ l, c ≠ '\n') → splitOnNl l = [l] := by
  intro l
  induction l with
  | nil => intro _; rfl
  | cons c r ih =>
    intro h
    have hc : c ≠ '\n' := h c (by simp)
    have := ih (fun d hd => h d (by simp [hd]))
    simp only [splitOnNl, this, hc, if_false]

lemma splitOnNl_append :
    ∀ (a b : List Char), (∀ c ∈ a, c ≠ '\n') →
      splitOnNl (a ++ '\n' :: b) = a :: splitOnNl b := by
  intro a
  induction a with
  | nil => intro b _; simp [splitOnNl]
  | cons c a' ih =>
    intro b h
    have hc : c ≠ '\n' := h c (by simp)
    have := ih b (fun d hd => h d (by simp [hd]))
    rw [show (c :: a') ++ '\n' :: b = c :: (a' ++ '\n' :: b) from rfl]
    simp only [splitOnNl, this, hc, if_false]

lemma splitOnNl_joinNl :
    ∀ (ls : List (List Char)), ls ≠ [] → (∀ l ∈ ls, ∀ c ∈ l, c ≠ '\n') →
      splitOnNl (joinNl ls) = ls := by
  intro ls
  induction ls with
  | nil => intro h _; exact absurd rfl h
  | cons l ls' ih =>
    intro _ h
    cases ls' with
    | nil =>
      rw [joinNl_singleton]
      exact splitOnNl_no_nl l (h l (by simp))
    | cons l2 ls'' =>
      rw [joinNl_cons_ne _ _ (by simp)]
      rw [splitOnNl_append _ _ (h l (by simp))]
      rw [ih (by simp) (fun v hv => h v (by simp [hv]))]

lemma getLast?_pat_space (pat x : List Char) (hx : x ≠ []) :
    (pat ++ ' ' :: x).getLast? = x.getLast? := by
  rw [show pat ++ ' ' :: x = (pat ++ [' ']) ++ x from by simp]
  exact List.getLast?_append_of_ne_nil _ hx

lemma exists_getLast? (l : List Char) (h : l ≠ []) : ∃ c, l.getLast? = some c := by
  obtain ⟨L, b, hL⟩ := (List.eq_nil_or_concat l).resolve_left h
  refine ⟨b, ?_⟩
  rw [hL, List.concat_eq_append]
  exact List.getLast?_concat _

lemma mem_of_getLast? (l : List Char) (c : Char) (h : l.getLast? = some c) : c ∈ l := by
  cases l with
  | nil => simp at h
  | cons a r =>
    obtain ⟨L, b, hL⟩ := (List.eq_nil_or_concat (a :: r)).resolve_left (by simp)
    rw [hL, List.concat_eq_append] at h ⊢
    rw [List.getLast?_concat] at h
    simp [Option.some_inj.mp h]

lemma strippedB_of_ends (l : List Char) (c1 c2 : Char) (h1 : l.head? = some c1)
    (h2 : l.getLast? = some c2) (s1 : pyIsSpace c1 = false) (s2 : pyIsSpace c2 = false) :
    strippedB l = true := by
  unfold strippedB
  rw [h1, h2]
  simp [s1, s2]

lemma caPat_no_nl : ∀ c ∈ caPat, c ≠ '\n' := by decide

lemma exPat_no_nl : ∀ c ∈ exPat, c ≠ '\n' := by decide

lemma caPat_space_nondigit : ∀ c ∈ caPat ++ [' '], c.isDigit = false := by decide

lemma exPat_space_nondigit : ∀ c ∈ exPat ++ [' '], c.isDigit = false := by decide

/-- The shared shape facts of the two marker lines. -/
lemma markerLine_props (pat : List Char) (x : List Char)
    (hpatnl : ∀ c ∈ pat, c ≠ '\n') (hpatnd : ∀ c ∈ pat ++ [' '], c.isDigit = false)
    (hwf : wfLine x = true) :
    (∀ c ∈ pat ++ ' ' :: x, c ≠ '\n') ∧ noDigitDot (pat ++ ' ' :: x) = true ∧
      (pat ++ ' ' :: x).getLast? = x.getLast? := by
  obtain ⟨hne, hstr, hnl, hnd⟩ := wfLine_props _ hwf
  refine ⟨?_, ?_, getLast?_pat_space pat x hne⟩
  · intro c hc
    rcases List.mem_append.mp hc with h | h
    · exact hpatnl c h
    · rcases List.mem_cons.mp h with rfl | h'
      · decide
      · exact hnl c h'
  · rw [show pat ++ ' ' :: x = (pat ++ [' ']) ++ x from by simp]
    exact noDigitDot_append_of_all_nondigit _ _ hpatnd hnd

lemma isOptLine_caLine (b : WFBlock) : isOptLine (caLine b) = false := rfl

lemma isOptLine_exLine (b : WFBlock) : isOptLine (exLine b) = false := rfl

lemma caPat_isPrefixOf_caLine (b : WFBlock) : caPat.isPrefixOf (caLine b) = true :=
  isPrefixOf_self_append caPat (' ' :: b.answer)

lemma caPat_not_prefixOf_exLine (b : WFBlock) : caPat.isPrefixOf (exLine b) = false := rfl

lemma exPat_isPrefixOf_exLine (b : WFBlock) : exPat.isPrefixOf (exLine b) = true :=
  isPrefixOf_self_append exPat (' ' :: b.explanation)

/-- A line matching the option pattern and stripped of whitespace sends the
machine to `options` and is appended, from any state (app.py lines 96-98). -/
lemma stepLine_opt (st : PState) (l : List Char) (h1 : pyStrip l = l)
    (h2 : isOptLine l = true) :
    stepLine st l = { st with mstate := .options, options := st.options ++ [l] } := by
  simp [stepLine, h1, h2]

/-- A plain stripped line in state `scenario` is appended to the scenario
(app.py lines 105-106). -/
lemma stepLine_scenario (st : PState) (l : List Char) (hst : st.mstate = .scenario)
    (h1 : pyStrip l = l) (h2 : isOptLine l = false)
    (h3 : caPat.isPrefixOf l = false) (h4 : exPat.isPrefixOf l = false) :
    stepLine st l = { st with scenario := st.scenario ++ [l] } := by
  simp [stepLine, h1, h2, h3, h4, hst]

/-- The `Correct Answer:` line stores the stripped remainder as the answer
(app.py lines 99-101). -/
lemma stepLine_ca (st : PState) (ans : List Char)
    (hstr : strippedB (caLine ⟨[], [], ans, []⟩) = true)
    (hans : pyStrip ans = ans) (hno : occursIn caPat (' ' :: ans) = false) :
    stepLine st (caPat ++ ' ' :: ans) = { st with answer := ans, mstate := .answer } := by
  have h1 : pyStrip (caPat ++ ' ' :: ans) = caPat ++ ' ' :: ans :=
    pyStrip_eq_self _ hstr
  have h2 : isOptLine (caPat ++ ' ' :: ans) = false := isOptLine_caLine ⟨[], [], ans, []⟩
  have h3 : caPat.isPrefixOf (caPat ++ ' ' :: ans) = true :=
    isPrefixOf_self_append _ _
  have hrep : pyReplace caPat (caPat ++ ' ' :: ans) = ' ' :: ans :=
    pyReplace_pat_cons caPat (' ' :: ans) (by simp [caPat]) hno
  have hstrip2 : pyStrip (' ' :: ans) = ans := by rw [pyStrip_cons_space, hans]
  simp [stepLine, h1, h2, h3, hrep, hstrip2]

/-- The `Explanation:` line stores the stripped remainder as the
explanation (app.py lines 102-104). -/
lemma stepLine_ex (st : PState) (expl : List Char)
    (hstr : strippedB (exLine ⟨[], [], [], expl⟩) = true)
    (hexpl : pyStrip expl = expl) (hno : occursIn exPat (' ' :: expl) = false) :
    stepLine st (exPat ++ ' ' :: expl)
      = { st with explanation := expl, mstate := .explanation } := by
  have h1 : pyStrip (exPat ++ ' ' :: expl) = exPat ++ ' ' :: expl :=
    pyStrip_eq_self _ hstr
  have h2 : isOptLine (exPat ++ ' ' :: expl) = false := isOptLine_exLine ⟨[], [], [], expl⟩
  have h3 : caPat.isPrefixOf (exPat ++ ' ' :: expl) = false :=
    caPat_not_prefixOf_exLine ⟨[], [], [], expl⟩
  have h4 : exPat.isPrefixOf (exPat ++ ' ' :: expl) = true :=
    isPrefixOf_self_append _ _
  have hrep : pyReplace exPat (exPat ++ ' ' :: expl) = ' ' :: expl :=
    pyReplace_pat_cons exPat (' ' :: expl) (by simp [exPat]) hno
  have hstrip2 : pyStrip (' ' :: expl) = expl := by rw [pyStrip_cons_space, hexpl]
  simp [stepLine, h1, h2, h3, h4, hrep, hstrip2]

/-- Folding the machine over a run of option lines appends them all and
leaves the machine in the `options` state. -/
lemma foldl_stepLine_opts :
    ∀ (os : List (List Char)) (st : PState),
      (∀ o ∈ os, pyStrip o = o ∧ isOptLine o = true) →
      List.foldl stepLine st os
        = { st with mstate := if os.isEmpty then st.mstate else .options,
                    options := st.options ++ os } := by
  intro os
  induction os with
  | nil => intro st _; simp
  | cons o os' ih =>
    intro st h
    rw [List.foldl_cons]
    rw [stepLine_opt st o (h o (by simp)).1 (h o (by simp)).2]
    rw [ih _ (fun v hv => h v (by simp [hv]))]
    cases os' with
    | nil => simp
    | cons a b => simp

lemma noDigitDot_joinNl :
    ∀ (ls : List (List Char)), (∀ l ∈ ls, noDigitDot l = true) →
      noDigitDot (joinNl ls) = true := by
  intro ls
  induction ls with
  | nil => intro _; rfl
  | cons l ls' ih =>
    intro h
    cases ls' with
    | nil => rw [joinNl_singleton]; exact h l (by simp)
    | cons a b =>
      rw [joinNl_cons_ne _ _ (by simp)]
      exact noDigitDot_append_newline _ _ (h l (by simp))
        (ih (fun v hv => h v (by simp [hv])))

lemma blockText_props (b : WFBlock) (h : wfBlock b = true) :
    noDigitDot (blockText b) = true ∧
      (blockText b).getLast? = b.explanation.getLast? ∧
      (blockText b).head? = b.scenario.head? ∧
      splitOnNl (blockText b) = blockLines b ∧
      20 ≤ (blockText b).length := by
  obtain ⟨hsc, hscOpt, hscCa, hscEx, hlen4, hopts, hans, hansNo, hexpl, hexplNo, hlast⟩ :=
    wfBlock_props b h
  obtain ⟨hscNe, hscStr, hscNl, hscNd⟩ := wfLine_props _ hsc
  obtain ⟨hcaNl, hcaNd, hcaLast⟩ :=
    markerLine_props caPat b.answer caPat_no_nl caPat_space_nondigit hans
  obtain ⟨hexNl, hexNd, hexLast⟩ :=
    markerLine_props exPat b.explanation exPat_no_nl exPat_space_nondigit hexpl
  have hlines : ∀ l ∈ blockLines b, (∀ c ∈ l, c ≠ '\n') ∧ noDigitDot l = true := by
    intro l hl
    unfold blockLines at hl
    rcases List.mem_cons.mp hl with rfl | hl'
    · exact ⟨hscNl, hscNd⟩
    · rcases List.mem_append.mp hl' with ho | hca
      · obtain ⟨hwfo, -⟩ := hopts l ho
        obtain ⟨-, -, honl, hond⟩ := wfLine_props _ hwfo
        exact ⟨honl, hond⟩
      · rcases List.mem_cons.mp hca with rfl | hca'
        · exact ⟨hcaNl, hcaNd⟩
        · rw [List.mem_singleton] at hca'
          subst hca'
          exact ⟨hexNl, hexNd⟩
  refine ⟨?_, ?_, ?_, ?_, ?_⟩
  · exact noDigitDot_joinNl _ (fun l hl => (hlines l hl).2)
  · have hshape : blockLines b = (b.scenario :: (b.opts ++ [caLine b])) ++ [exLine b] := by
      simp [blockLines]
    unfold blockText
    rw [hshape]
    rw [getLast?_joinNl_concat _ _ (by simp [exLine, exPat])]
    exact hexLast
  · unfold blockText blockLines
    rw [joinNl_cons_ne _ _ (by simp)]
    rcases hs : b.scenario with - | ⟨a, r⟩
    · exact absurd hs hscNe
    · rfl
  · unfold blockText
    exact splitOnNl_joinNl _ (by simp [blockLines]) (fun l hl => (hlines l hl).1)
  · have h1 : blockLines b = ([b.scenario] ++ b.opts) ++ [caLine b, exLine b] := by
      simp [blockLines]
    have h2 := joinNl_length_tail ([b.scenario] ++ b.opts) [caLine b, exLine b] (by simp)
    have h3 : joinNl [caLine b, exLine b] = caLine b ++ '\n' :: exLine b := by
      rw [joinNl_cons_ne _ _ (by simp), joinNl_singleton]
    rw [h3] at h2
    have hca : caPat.length = 15 := rfl
    have hex : exPat.length = 12 := rfl
    have h5 : (caLine b ++ '\n' :: exLine b).length
        = caPat.length + 1 + b.answer.length + 1 + (exPat.length + 1 + b.explanation.length) := by
      simp [caLine, exLine]
      omega
    unfold blockText
    rw [h1]
    rw [hca, hex] at h5
    omega

/-- The parser's per-block processing recovers exactly the fields of a
well-formed block. -/
lemma parse_block_blockText (b : WFBlock) (h : wfBlock b = true) :
    parse_block (blockText b) = some (toRecord b) := by
  obtain ⟨hnd, hlastq, hheadq, hsplitq, hlenq⟩ := blockText_props b h
  obtain ⟨hsc, hscOpt, hscCa, hscEx, hlen4, hopts, hans, hansNo, hexpl, hexplNo, hlast⟩ :=
    wfBlock_props b h
  obtain ⟨hscNe, hscStr, -, -⟩ := wfLine_props _ hsc
  obtain ⟨hansNe, hansStr, -, -⟩ := wfLine_props _ hans
  obtain ⟨hexplNe, hexplStr, -, -⟩ := wfLine_props _ hexpl
  have hscHead : ∃ c1, b.scenario.head? = some c1 := by
    rcases hs : b.scenario with - | ⟨a, r⟩
    · exact absurd hs hscNe
    · exact ⟨a, rfl⟩
  obtain ⟨c1, hc1⟩ := hscHead
  obtain ⟨c2, hc2⟩ := exists_getLast? _ hexplNe
  have hstrip : pyStrip (blockText b) = blockText b :=
    pyStrip_eq_self _ (strippedB_of_ends _ c1 c2 (by rw [hheadq]; exact hc1)
      (by rw [hlastq]; exact hc2)
      (strippedB_head _ hscStr c1 hc1) (strippedB_getLast _ hexplStr c2 hc2))
  have hstrCa : strippedB (caLine ⟨[], [], b.answer, []⟩) = true := by
    obtain ⟨c3, hc3⟩ := exists_getLast? _ hansNe
    exact strippedB_of_ends _ 'C' c3 rfl
      (by rw [show caLine ⟨[], [], b.answer, []⟩ = caPat ++ ' ' :: b.answer from rfl,
              getLast?_pat_space _ _ hansNe]; exact hc3)
      (by decide) (strippedB_getLast _ hansStr c3 hc3)
  have hstrEx : strippedB (exLine ⟨[], [], [], b.explanation⟩) = true := by
    exact strippedB_of_ends _ 'E' c2 rfl
      (by rw [show exLine ⟨[], [], [], b.explanation⟩ = exPat ++ ' ' :: b.explanation from rfl,
              getLast?_pat_space _ _ hexplNe]; exact hc2)
      (by decide) (strippedB_getLast _ hexplStr c2 hc2)
  have hoptsNe : b.opts.isEmpty = false := by
    rw [List.isEmpty_eq_false]
    exact List.ne_nil_of_length_pos (by omega)
  unfold parse_block
  rw [hstrip]
  rw [if_neg (by omega)]
  dsimp only
  rw [hsplitq]
  unfold blockLines
  rw [List.foldl_cons]
  rw [stepLine_scenario initPS b.scenario rfl (pyStrip_eq_self _ hscStr) hscOpt hscCa hscEx]
  rw [List.foldl_append]
  rw [foldl_stepLine_opts b.opts _
    (fun o ho => ⟨pyStrip_eq_self _ (wfLine_props _ (hopts o ho).1).2.1, (hopts o ho).2⟩)]
  rw [List.foldl_cons, List.foldl_cons, List.foldl_nil]
  rw [show caLine b = caPat ++ ' ' :: b.answer from rfl] at *
  rw [stepLine_ca _ b.answer hstrCa (pyStrip_eq_self _ hansStr) hansNo]
  rw [show exLine b = exPat ++ ' ' :: b.explanation from rfl] at *
  rw [stepLine_ex _ b.explanation hstrEx (pyStrip_eq_self _ hexplStr) hexplNo]
  simp only [initPS, hoptsNe, Bool.false_eq_true, if_false, List.nil_append]
  rw [if_pos ?cond]
  case cond =>
    simp only [Bool.and_eq_true, Bool.not_eq_true', List.isEmpty_eq_false]
    exact ⟨trivial, hansNe⟩
  · simp [toRecord, joinSp]

/-- The splitter recovers exactly the rendered blocks (plus the empty
leading piece). -/
lemma splitF_renderBlocks :
    ∀ (bs : List WFBlock) (j : Nat) (acc : List Char) (f : Nat),
      (renderBlocks j bs).length ≤ f → (∀ b ∈ bs, wfBlock b = true) →
      splitF f acc (renderBlocks j bs) = acc.reverse :: bs.map blockText := by
  intro bs
  induction bs with
  | nil =>
    intro j acc f _ _
    exact splitF_nil f acc
  | cons b bs' ih =>
    intro j acc f hf hwf
    rw [show renderBlocks j (b :: bs')
        = '\n' :: (pyRepr j ++ '.' :: '\n' :: (blockText b ++ renderBlocks (j + 1) bs'))
      from rfl] at hf ⊢
    cases f with
    | zero => simp at hf
    | succ f' =>
      have hmark := matchDelim_marker (pyRepr j) (blockText b ++ renderBlocks (j + 1) bs')
        (pyRepr_ne_nil j) (pyRepr_digits j)
      rw [splitF_cons_match_some f' acc '\n' _ _ hmark]
      congr 1
      have hbt := blockText_props b (hwf b (by simp))
      obtain ⟨-, -, -, -, -, -, -, -, hexpl, -, hlast⟩ := wfBlock_props b (hwf b (by simp))
      obtain ⟨-, -, hexplNl, -⟩ := wfLine_props _ hexpl
      have hAdj : ∀ (p : List Char) (d : Char) (suf : List Char),
          blockText b = p ++ d :: '.' :: suf → d.isDigit = true → False :=
        fun p d suf hdec hdig => noDigitDot_no_decomp p _ hbt.1 d suf hdec hdig
      have hLast : ∀ (p : List Char) (c : Char), blockText b = p ++ [c] →
          c ≠ '\n' ∧ c ≠ '*' ∧ c.isDigit = false := by
        intro p c hdec
        have hg : (blockText b).getLast? = some c := by
          rw [hdec]
          exact List.getLast?_concat _
        rw [hbt.2.1] at hg
        have h1 := hlast c hg
        have h2 : c ∈ b.explanation := mem_of_getLast? _ _ hg
        exact ⟨hexplNl c h2, h1.2, h1.1⟩
      have hfuel : (blockText b ++ renderBlocks (j + 1) bs').length ≤ f' := by
        simp only [List.length_cons, List.length_append] at hf ⊢
        omega
      rw [splitF_no_match_seg (blockText b) f' [] _ hfuel
        (matchDelim_none_of_seg _ _ hAdj hLast)]
      rw [List.append_nil]
      rw [ih (j + 1) (blockText b).reverse (f' - (blockText b).length)
        (by simp only [List.length_append] at hfuel; omega)
        (fun v hv => hwf v (by simp [hv]))]
      simp

/-- C1: rendering N well-formed numbered blocks (scenario line, four option
lines labelled `A)`-`D)` style, a `Correct Answer:` line, an `Explanation:`
line) and parsing the result emits exactly N records, in block order, with
the corresponding fields; in particular every emitted record has exactly 4
options. -/
theorem C1_wellformed_blocks_roundtrip (bs : List WFBlock)
    (h : ∀ b ∈ bs, wfBlock b = true) :
    parse_mcqs (renderRaw bs) = bs.map toRecord ∧
      ∀ r ∈ parse_mcqs (renderRaw bs), r.options.length = 4 := by
  have hsplit : splitDelim (renderRaw bs) = [] :: bs.map blockText := by
    unfold splitDelim renderRaw
    rw [splitF_renderBlocks bs 1 [] _ le_rfl h]
    rfl
  have haux : ∀ (l : List WFBlock), (∀ b ∈ l, wfBlock b = true) →
      (l.map blockText).filterMap parse_block = l.map toRecord := by
    intro l
    induction l with
    | nil => intro _; rfl
    | cons b l' ihl =>
      intro hl
      rw [List.map_cons, List.map_cons, List.filterMap_cons,
        parse_block_blockText b (hl b (by simp))]
      rw [ihl (fun v hv => hl v (by simp [hv]))]
  have hmap : parse_mcqs (renderRaw bs) = bs.map toRecord := by
    unfold parse_mcqs
    rw [hsplit, List.filterMap_cons]
    rw [show parse_block [] = none from by decide]
    exact haux bs h
  refine ⟨hmap, ?_⟩
  intro r hr
  rw [hmap] at hr
  obtain ⟨b, hb, rfl⟩ := List.mem_map.mp hr
  show b.opts.length = 4
  exact (wfBlock_props b (h b hb)).2.2.2.2.1

/-- Witness for C1 at two concrete well-formed blocks. -/
theorem C1_witness :
    parse_mcqs (renderRaw
      [⟨"A tenant is evicted without notice.".toList,
        ["A) Valid".toList, "B) Invalid".toList, "C) Unclear".toList, "D) None".toList],
        "B".toList, "Due process requires notice.".toList⟩,
       ⟨"A law is passed banning assembly.".toList,
        ["A. One".toList, "B. Two".toList, "C. Three".toList, "D. Four".toList],
        "A".toList, "Article 19 protects assembly".toList⟩])
      = [⟨"A tenant is evicted without notice.".toList,
          ["A) Valid".toList, "B) Invalid".toList, "C) Unclear".toList, "D) None".toList],
          "B".toList, "Due process requires notice.".toList⟩,
         ⟨"A law is passed banning assembly.".toList,
          ["A. One".toList, "B. Two".toList, "C. Three".toList, "D. Four".toList],
          "A".toList, "Article 19 protects assembly".toList⟩].map toRecord ∧
      ∀ r ∈ parse_mcqs (renderRaw
        [⟨"A tenant is evicted without notice.".toList,
          ["A) Valid".toList, "B) Invalid".toList, "C) Unclear".toList, "D) None".toList],
          "B".toList, "Due process requires notice.".toList⟩,
         ⟨"A law is passed banning assembly.".toList,
          ["A. One".toList, "B. Two".toList, "C. Three".toList, "D. Four".toList],
          "A".toList, "Article 19 protects assembly".toList⟩]), r.options.length = 4 :=
  C1_wellformed_blocks_roundtrip _ (by decide)
